import Mathlib

-- Verification of the statistical sequence-model notebook (alphabet codec,
-- one-hot statistics, independent-site model, Gaussian pairwise model and
-- its Metropolis sampler).  Numpy float arrays are modelled as real-valued
-- vectors indexed by (position, explicit symbol) pairs; a flat vector of
-- length L*(q-1) is accessed by the code only through per-position block
-- slices, which correspond here to fixing the first component of the index.

open Real Matrix

noncomputable section

/-- Index set of a gauge-fixed one-hot expanded vector: a position (out of L)
together with an explicit symbol (out of qg = q - 1, the last symbol being
implicit). -/
abbrev Idx (L qg : ℕ) := Fin L × Fin qg

/-- Embedding of bm_energy: h = J.f (matrix-vector product), ener1 = -(h.s),
ener2 = s.(J.s)/2, and the returned value is -(ener1 + ener2). -/
def bm_energy {n : Type*} [Fintype n] (jcoupling_gauss : Matrix n n ℝ)
    (ave_freqs seq : n → ℝ) : ℝ :=
  let h := jcoupling_gauss.mulVec ave_freqs;
  let ener1 := -(h ⬝ᵥ seq);
  let ener2 := (seq ⬝ᵥ jcoupling_gauss.mulVec seq) / 2;
  -(ener1 + ener2)

/-- Embedding of the slice h = jcoupl[pos block rows] . p followed by
delta_h = -( (s - s_t)[pos block] . h ) inside metropolis. -/
def metro_delta_h {L qg : ℕ} (jcoupl : Matrix (Idx L qg) (Idx L qg) ℝ)
    (p s s_t : Idx L qg → ℝ) (pos : Fin L) : ℝ :=
  -(∑ a : Fin qg, (s (pos, a) - s_t (pos, a)) * (jcoupl (pos, a) ⬝ᵥ p))

/-- Embedding of jcoupl_marginal = jcoupl[pos block rows] . s and
delta_coupl1 = (s - s_t)[pos block] . jcoupl_marginal inside metropolis. -/
def metro_delta_coupl1 {L qg : ℕ} (jcoupl : Matrix (Idx L qg) (Idx L qg) ℝ)
    (s s_t : Idx L qg → ℝ) (pos : Fin L) : ℝ :=
  ∑ a : Fin qg, (s (pos, a) - s_t (pos, a)) * (jcoupl (pos, a) ⬝ᵥ s)

/-- Embedding of jcoupl_diag = jcoupl[pos block, pos block] and
delta_coupl2 = -0.5 * (delta_seq . (jcoupl_diag . delta_seq)) inside
metropolis, where delta_seq = (s - s_t)[pos block]. -/
def metro_delta_coupl2 {L qg : ℕ} (jcoupl : Matrix (Idx L qg) (Idx L qg) ℝ)
    (s s_t : Idx L qg → ℝ) (pos : Fin L) : ℝ :=
  -(1 / 2) * ∑ a : Fin qg, (s (pos, a) - s_t (pos, a)) *
    (∑ b : Fin qg, jcoupl (pos, a) (pos, b) * (s (pos, b) - s_t (pos, b)))

/-- Embedding of energy_diff = delta_h + delta_coupl1 + delta_coupl2, the
local O(L q) energy-difference formula inside metropolis. -/
def metropolis_energy_diff {L qg : ℕ} (jcoupl : Matrix (Idx L qg) (Idx L qg) ℝ)
    (p s s_t : Idx L qg → ℝ) (pos : Fin L) : ℝ :=
  metro_delta_h jcoupl p s s_t pos + metro_delta_coupl1 jcoupl s s_t pos +
    metro_delta_coupl2 jcoupl s s_t pos

/-- Embedding of pc_freqs = freqs * (1 - alpha) + alpha / q inside
indip_model_fields: the pseudo-count regularized explicit frequencies. -/
def pc_freqs {L qg : ℕ} (freqs : Idx L qg → ℝ) (alpha : ℝ) (q : ℕ) : Idx L qg → ℝ :=
  fun x => freqs x * (1 - alpha) + alpha / q

/-- Embedding of the freq_gauge array inside indip_model_fields: every entry
of block i holds 1 minus the sum of the regularized explicit frequencies of
block i (the regularized implicit-symbol frequency of that position). -/
def freq_gauge {L qg : ℕ} (freqs : Idx L qg → ℝ) (alpha : ℝ) (q : ℕ) : Idx L qg → ℝ :=
  fun x => 1 - ∑ a : Fin qg, pc_freqs freqs alpha q (x.1, a)

/-- Embedding of indip_model_fields. The Python body raises no exception:
numpy log and numpy division only emit runtime warnings and produce
non-finite float entries instead of raising, so the function always returns
an ordinary value (modelled by some); the real-valued entries stand for the
float entries wherever these are finite. -/
def indip_model_fields {L qg : ℕ} (freqs : Idx L qg → ℝ) (alpha : ℝ) (q : ℕ) :
    Option (Idx L qg → ℝ) :=
  some fun x => Real.log (pc_freqs freqs alpha q x / freq_gauge freqs alpha q x)

/-- Embedding of one iteration of the diagonal-block repair loop inside
add_pseudocounts: the whole (i, i) self-correlation block is overwritten
with zeros and then its diagonal entries are set to the regularized
frequencies; entries outside the block are left unchanged. -/
def fix_diag_block {L qg : ℕ} (f_pseudo : Idx L qg → ℝ) (i : Fin L)
    (c : Matrix (Idx L qg) (Idx L qg) ℝ) : Matrix (Idx L qg) (Idx L qg) ℝ :=
  Matrix.of fun x y =>
    if x.1 = i ∧ y.1 = i then (if x.2 = y.2 then f_pseudo x else 0) else c x y

/-- Embedding of add_pseudocounts: pseudo-counts of strength alpha / q_true
are applied to the frequencies and of strength alpha / q_true^2 to the full
correlation matrix, then the diagonal-block repair loop runs over all
positions; the pair (f_pseudo, repaired c_pseudo) is returned. -/
def add_pseudocounts {L qg : ℕ} (corr_mat : Matrix (Idx L qg) (Idx L qg) ℝ)
    (freqs : Idx L qg → ℝ) (alpha : ℝ) (q_true : ℕ) :
    (Idx L qg → ℝ) × Matrix (Idx L qg) (Idx L qg) ℝ :=
  let f_pseudo : Idx L qg → ℝ := fun x => (1 - alpha) * freqs x + alpha / q_true;
  let c_pseudo : Matrix (Idx L qg) (Idx L qg) ℝ :=
    Matrix.of fun x y => (1 - alpha) * corr_mat x y + alpha / (q_true : ℝ) ^ 2;
  (f_pseudo, (List.finRange L).foldl (fun c i => fix_diag_block f_pseudo i c) c_pseudo)

/-- Convention 0 * log2 0 = 0: contribution of one frequency entry to the
conservation sum (mathematical abbreviation used to state lemmas). -/
def plogb (x : ℝ) : ℝ := if x = 0 then 0 else x * Real.logb 2 x

/-- Natural-log variant of plogb, used in proofs. -/
def plog (x : ℝ) : ℝ := if x = 0 then 0 else x * Real.log x

/-- Embedding of conservation_1hot: for each position i, with explicit block
frequencies f and implicit-symbol frequency lf = 1 - sum f, the conservation
is log2 q plus the sum of f * log2 f over the nonzero explicit entries, plus
lf * log2 lf when lf is nonzero (the code filters out zero frequencies
before taking logs). -/
def conservation_1hot {L qg : ℕ} (freqs : Idx L qg → ℝ) (q : ℕ) : Fin L → ℝ :=
  fun i =>
    let f : Fin qg → ℝ := fun a => freqs (i, a);
    let lf : ℝ := 1 - ∑ a : Fin qg, f a;
    let sum_ff : ℝ := ∑ a : Fin qg, if f a = 0 then 0 else f a * Real.logb 2 (f a);
    if lf ≠ 0 then Real.logb 2 q + sum_ff + lf * Real.logb 2 lf
    else Real.logb 2 q + sum_ff

/-- The fixed 21-symbol alphabet (gap symbol first), as in the source. -/
def AAs : List Char :=
  ['-', 'A', 'C', 'D', 'E', 'F', 'G', 'H', 'I', 'K', 'L', 'M', 'N', 'P', 'Q',
   'R', 'S', 'T', 'V', 'W', 'Y']

/-- Embedding of the dictionary ntdict = \x7bAAs[k] : k\x7d inside seq2num:
looks up the index of a symbol, failing (KeyError) outside the alphabet. -/
def ntdict (c : Char) : Option ℕ := AAs.indexOf? c

/-- Numeric value passed to num2seq: either a flat integer array or a
two-dimensional integer array, which Python iterates row by row. -/
inductive PyNum : Type
  | flat (xs : List ℕ)
  | mat (rows : List (List ℕ))

/-- Input of seq2num: a single string or a list of strings. -/
inductive PySeqInput : Type
  | str (s : List Char)
  | list (ss : List (List Char))

/-- Embedding of seq2num: a single string is encoded and wrapped in an extra
leading axis (np.newaxis), so a string of length n becomes a 1 x n matrix; a
list of sequences becomes the matrix of encoded rows. An unknown symbol
fails (dictionary KeyError). -/
def seq2num : PySeqInput → Option PyNum
  | .str s => (s.mapM ntdict).map fun row => PyNum.mat [row]
  | .list ss => (ss.mapM fun s => List.mapM ntdict s).map PyNum.mat

/-- Indexing a Python list by a numpy integer array: a size-one array is
converted to its scalar entry (legacy index conversion), any other size
raises a TypeError. -/
def pylist_index (l : List Char) : List ℕ → Option Char
  | [k] => l.get? k
  | _ => none

/-- Embedding of num2seq: joins AAs[x] over the elements x of num. Iterating
a flat array yields integer scalars, so AAs is indexed by plain integers
(failing when out of range); iterating a two-dimensional array yields its
rows, and indexing the alphabet list by a whole row raises a TypeError
unless the row has size one. -/
def num2seq : PyNum → Option (List Char)
  | .flat xs => xs.mapM fun k => AAs.get? k
  | .mat rows => rows.mapM fun row => pylist_index AAs row

/-- Embedding of seq2occurrence on an alignment of B equal-length numeric
sequences (the matrix that seq2num returns for a list of equal-length
strings): row r has entry 1 at (i, a) exactly when sequence r carries symbol
a at position i; the entries are int casts of boolean comparisons. -/
def seq2occurrence {B N : ℕ} (seqs : Fin B → Fin N → ℕ) (q_true : ℕ) :
    Fin B → Idx N (q_true - 1) → ℤ :=
  fun r x => if seqs r x.1 = (x.2 : ℕ) then 1 else 0

/-- Embedding of sample_data_indip with the realized categorical draw made
explicit: position i draws one of the q symbols (with the normalized
exp(beta * field) weights, weight 1 for the implicit symbol); entry (i, a)
of the returned vector is 1 exactly when the draw at i is the explicit
symbol a, and a draw of the implicit symbol leaves the block all zero. -/
def sample_data_indip {L qg : ℕ} (fields : Idx L qg → ℝ) (beta : ℝ)
    (draw : Fin L → Fin (qg + 1)) : Idx L qg → ℝ :=
  fun x => if (draw x.1 : ℕ) = (x.2 : ℕ) then 1 else 0

/-- The one-hot block invariant: within each position block at most one
entry equals 1. -/
def one_hot_invariant {L qg : ℕ} {α : Type*} [One α] (v : Idx L qg → α) : Prop :=
  ∀ (i : Fin L) (a b : Fin qg), v (i, a) = 1 → v (i, b) = 1 → a = b

/-- Numpy dtypes relevant to the start-configuration check of metropolis. -/
inductive Dtype : Type
  | int32
  | int64
  | float64
  deriving DecidableEq

/-- Start-configuration argument of metropolis: the default scalar NaN, or a
numeric array together with its dtype (numpy arrays are homogeneous, so the
type of entry 0 checked by the code is the dtype of the whole array). -/
inductive StartConf (L qg : ℕ) : Type
  | nan : StartConf L qg
  | arr (dtype : Dtype) (v : Idx L qg → ℤ) : StartConf L qg

/-- Result of metropolis: a final chain configuration, or the bare integer
error code 1 that the code returns after printing its message. -/
inductive MetroResult (L qg : ℕ) : Type
  | conf (s : Idx L qg → ℤ)
  | code (n : ℕ)

/-- Result of the start-configuration preparation phase of metropolis. -/
inductive InitResult (L qg : ℕ) : Type
  | ok (s : Idx L qg → ℤ)
  | err (n : ℕ)

/-- Random draws consumed by one Metropolis step: the uniformly random
position, the uniformly random proposed symbol (implicit one included), and
the uniform accept draw x. -/
structure MetroDraw (L qg : ℕ) : Type where
  pos : Fin L
  t_n : Fin (qg + 1)
  x : ℝ

/-- Embedding of t_1hot: the proposed one-hot block, all zero when the
proposed symbol is the implicit one (t_n = q_true - 1). -/
def t_1hot {qg : ℕ} (t_n : Fin (qg + 1)) : Fin qg → ℤ :=
  fun a => if (a : ℕ) = (t_n : ℕ) then 1 else 0

/-- Embedding of one Metropolis step: build the proposed configuration s_t
by replacing the block of the chosen position with t_1hot, compute the local
energy difference, and accept (move to s_t) exactly when the accept draw x
falls below min(1, exp(-beta * energy_diff)). -/
def metropolis_step {L qg : ℕ} (jcoupl : Matrix (Idx L qg) (Idx L qg) ℝ)
    (p : Idx L qg → ℝ) (beta : ℝ) (s : Idx L qg → ℤ) (dr : MetroDraw L qg) :
    Idx L qg → ℤ :=
  let s_t : Idx L qg → ℤ := fun x => if x.1 = dr.pos then t_1hot dr.t_n x.2 else s x;
  let energy_diff : ℝ := metropolis_energy_diff jcoupl p
    (fun x => (s x : ℝ)) (fun x => (s_t x : ℝ)) dr.pos;
  let prob : ℝ := min 1 (Real.exp (-beta * energy_diff));
  if dr.x < prob then s_t else s

/-- Embedding of the start-configuration preparation inside metropolis: the
default NaN start takes the realized np.random.randint(1, size=L) draw
rand_start; an array start is accepted only when its dtype is np.int32, and
otherwise the function prints a message and returns the error code 1. -/
def metropolis_init {L qg : ℕ} (start_conf : StartConf L qg)
    (rand_start : Idx L qg → ℤ) : InitResult L qg :=
  match start_conf with
  | .nan => .ok rand_start
  | .arr dtype v => if dtype ≠ Dtype.int32 then .err 1 else .ok v

/-- Embedding of metropolis: prepare the start configuration, then run one
step per element of the draw list (Nsteps = draws.length), returning the
final configuration, or the error code from the preparation phase. -/
def metropolis {L qg : ℕ} (jcoupl : Matrix (Idx L qg) (Idx L qg) ℝ)
    (p : Idx L qg → ℝ) (beta : ℝ) (start_conf : StartConf L qg)
    (rand_start : Idx L qg → ℤ) (draws : List (MetroDraw L qg)) :
    MetroResult L qg :=
  match metropolis_init start_conf rand_start with
  | .err n => .code n
  | .ok s => .conf (draws.foldl (metropolis_step jcoupl p beta) s)

end

-- Helper lemmas.

/-- Closed form of bm_energy: the linear cross-term enters with positive sign. -/
theorem bm_energy_eq {n : Type*} [Fintype n] (J : Matrix n n ℝ) (f s : n → ℝ) :
    bm_energy J f s = J.mulVec f ⬝ᵥ s - (s ⬝ᵥ J.mulVec s) / 2 := by
  simp only [bm_energy]
  ring

/-- Claim C1 (counterexample): at the concrete one-dimensional input
J = (1), f = (1), s = (1), bm_energy returns 1/2 whereas the claimed value
-[(J.f).s + (1/2) s.(J.s)] is -3/2, so the claimed formula is wrong. -/
theorem bm_energy_formula_counterexample :
    bm_energy (Matrix.of fun _ _ => (1 : ℝ) : Matrix (Fin 1) (Fin 1) ℝ)
        (fun _ => 1) (fun _ => 1) ≠
      -(((Matrix.of fun _ _ => (1 : ℝ) : Matrix (Fin 1) (Fin 1) ℝ).mulVec (fun _ => 1) ⬝ᵥ
          fun _ => 1) +
        ((fun _ => (1 : ℝ)) ⬝ᵥ
          (Matrix.of fun _ _ => (1 : ℝ) : Matrix (Fin 1) (Fin 1) ℝ).mulVec fun _ => 1) / 2) := by
  simp only [bm_energy, Matrix.mulVec, Matrix.dotProduct, Fin.sum_univ_one, Matrix.of_apply]
  norm_num

/-- Claim C1 (amended): for every coupling matrix J, frequency vector f and
occurrence vector s, bm_energy(J, f, s) returns (J.f).s - (1/2) s.(J.s),
that is, the linear cross-term (J.frequencies).seq enters the returned
energy with positive sign (the quadratic term alone is negated). -/
theorem bm_energy_formula_amended {n : Type*} [Fintype n] (J : Matrix n n ℝ)
    (f s : n → ℝ) :
    bm_energy J f s = J.mulVec f ⬝ᵥ s - (s ⬝ᵥ J.mulVec s) / 2 :=
  bm_energy_eq J f s

/-- A sum over one position block equals the sum over the whole index set
when the summand vanishes outside that block. -/
theorem sum_block_eq_sum {L qg : ℕ} (pos : Fin L) (g : Idx L qg → ℝ)
    (hg : ∀ x : Idx L qg, x.1 ≠ pos → g x = 0) :
    ∑ a : Fin qg, g (pos, a) = ∑ x : Idx L qg, g x := by
  rw [Fintype.sum_prod_type]
  exact (Finset.sum_eq_single pos
    (fun b _ hb => Finset.sum_eq_zero fun a _ => hg (b, a) hb)
    (fun h => absurd (Finset.mem_univ pos) h)).symm

/-- For a symmetric matrix, the bilinear form u.(J.v) is symmetric in u, v. -/
theorem dotProduct_mulVec_symm {n : Type*} [Fintype n] (J : Matrix n n ℝ)
    (hsymm : Jᵀ = J) (u v : n → ℝ) :
    u ⬝ᵥ J.mulVec v = v ⬝ᵥ J.mulVec u := by
  rw [Matrix.dotProduct_mulVec, ← Matrix.mulVec_transpose, hsymm, Matrix.dotProduct_comm]

/-- Claim C2: for every symmetric coupling matrix J, every frequency vector p,
every current state s and every proposed state s_t that differs from s only in
the block of the chosen position, the local energy-difference formula
delta_h + delta_coupl1 + delta_coupl2 computed inside metropolis equals the
full recomputation bm_energy(J, p, s_t) - bm_energy(J, p, s). -/
theorem metropolis_energy_diff_correct {L qg : ℕ}
    (jcoupl : Matrix (Idx L qg) (Idx L qg) ℝ) (p s s_t : Idx L qg → ℝ)
    (pos : Fin L) (hsymm : jcouplᵀ = jcoupl)
    (hagree : ∀ x : Idx L qg, x.1 ≠ pos → s_t x = s x) :
    metropolis_energy_diff jcoupl p s s_t pos =
      bm_energy jcoupl p s_t - bm_energy jcoupl p s := by
  -- the difference vector vanishes outside the chosen block
  set d : Idx L qg → ℝ := fun x => s x - s_t x with hd
  have hdzero : ∀ x : Idx L qg, x.1 ≠ pos → d x = 0 := by
    intro x hx
    simp [hd, hagree x hx]
  -- rewrite the three local pieces as global bilinear expressions
  have h1 : metro_delta_h jcoupl p s s_t pos = -(d ⬝ᵥ jcoupl.mulVec p) := by
    unfold metro_delta_h
    rw [sum_block_eq_sum pos (fun x => d x * (jcoupl x ⬝ᵥ p))
      (fun x hx => by simp [hdzero x hx])]
    rfl
  have h2 : metro_delta_coupl1 jcoupl s s_t pos = d ⬝ᵥ jcoupl.mulVec s := by
    unfold metro_delta_coupl1
    rw [sum_block_eq_sum pos (fun x => d x * (jcoupl x ⬝ᵥ s))
      (fun x hx => by simp [hdzero x hx])]
    rfl
  have h3 : metro_delta_coupl2 jcoupl s s_t pos = -(1 / 2) * (d ⬝ᵥ jcoupl.mulVec d) := by
    unfold metro_delta_coupl2
    congr 1
    have hinner : ∀ a : Fin qg,
        (∑ b : Fin qg, jcoupl (pos, a) (pos, b) * (s (pos, b) - s_t (pos, b))) =
          jcoupl (pos, a) ⬝ᵥ d := by
      intro a
      rw [sum_block_eq_sum pos (fun y => jcoupl (pos, a) y * d y)
        (fun y hy => by simp [hdzero y hy])]
      rfl
    calc (∑ a : Fin qg, (s (pos, a) - s_t (pos, a)) *
            (∑ b : Fin qg, jcoupl (pos, a) (pos, b) * (s (pos, b) - s_t (pos, b))))
        = ∑ a : Fin qg, d (pos, a) * (jcoupl (pos, a) ⬝ᵥ d) := by
          exact Finset.sum_congr rfl fun a _ => by rw [hinner a]
      _ = ∑ x : Idx L qg, d x * (jcoupl x ⬝ᵥ d) := by
          exact sum_block_eq_sum pos (fun x => d x * (jcoupl x ⬝ᵥ d))
            (fun x hx => by simp [hdzero x hx])
      _ = d ⬝ᵥ jcoupl.mulVec d := rfl
  -- expand the full recomputation with s_t = s - d
  have hst : s_t = s - d := by
    funext x
    simp [hd]
  have hcross : d ⬝ᵥ jcoupl.mulVec s = s ⬝ᵥ jcoupl.mulVec d :=
    dotProduct_mulVec_symm jcoupl hsymm d s
  rw [metropolis_energy_diff, h1, h2, h3, bm_energy_eq, bm_energy_eq, hst]
  simp only [Matrix.mulVec_sub, Matrix.dotProduct_sub, Matrix.sub_dotProduct]
  rw [hcross, Matrix.dotProduct_comm d (jcoupl.mulVec p)]
  ring

/-- Claim C2 (witness): the local formula agrees with the full recomputation
at the concrete input L = qg = 1, J = (1), p = (1), s = (1), s_t = (0). -/
theorem metropolis_energy_diff_correct_witness :
    ((Matrix.of fun _ _ => (1 : ℝ) : Matrix (Idx 1 1) (Idx 1 1) ℝ)ᵀ =
        (Matrix.of fun _ _ => (1 : ℝ) : Matrix (Idx 1 1) (Idx 1 1) ℝ)) ∧
      metropolis_energy_diff (Matrix.of fun _ _ => (1 : ℝ) : Matrix (Idx 1 1) (Idx 1 1) ℝ)
          (fun _ => 1) (fun _ => 1) (fun _ => 0) (0 : Fin 1) =
        bm_energy (Matrix.of fun _ _ => (1 : ℝ) : Matrix (Idx 1 1) (Idx 1 1) ℝ)
            (fun _ => 1) (fun _ => 0) -
          bm_energy (Matrix.of fun _ _ => (1 : ℝ) : Matrix (Idx 1 1) (Idx 1 1) ℝ)
            (fun _ => 1) (fun _ => 1) :=
  ⟨rfl, metropolis_energy_diff_correct
    (Matrix.of fun _ _ => (1 : ℝ) : Matrix (Idx 1 1) (Idx 1 1) ℝ)
    (fun _ => 1) (fun _ => 1) (fun _ => 0) 0 rfl
    (fun x hx => absurd (Subsingleton.elim x.1 0) hx)⟩

/-- The pc_freqs entry written out. -/
theorem pc_freqs_apply {L qg : ℕ} (freqs : Idx L qg → ℝ) (alpha : ℝ) (q : ℕ)
    (x : Idx L qg) :
    pc_freqs freqs alpha q x = (1 - alpha) * freqs x + alpha / q := by
  simp [pc_freqs]
  ring

/-- The freq_gauge entry equals the pseudo-count regularization applied to
the implicit-symbol frequency 1 minus the explicit block sum, provided the
block length qg and the alphabet size q satisfy qg + 1 = q. -/
theorem freq_gauge_apply {L qg : ℕ} (freqs : Idx L qg → ℝ) (alpha : ℝ) (q : ℕ)
    (hq : qg + 1 = q) (x : Idx L qg) :
    freq_gauge freqs alpha q x =
      (1 - alpha) * (1 - ∑ a : Fin qg, freqs (x.1, a)) + alpha / q := by
  have hqpos : 0 < q := hq ▸ Nat.succ_pos qg
  simp only [freq_gauge, pc_freqs, Finset.sum_add_distrib, ← Finset.sum_mul,
    Finset.sum_const, Finset.card_univ, Fintype.card_fin, nsmul_eq_mul]
  have hcast : (qg : ℝ) = (q : ℝ) - 1 := by
    have h1 : (qg : ℝ) + 1 = (q : ℝ) := by exact_mod_cast hq
    linarith
  field_simp
  ring_nf
  rw [hcast]
  ring

/-- Claim C3: for q = 21 and alpha in (0, 1), on a gauge-fixed frequency
vector with nonnegative entries whose explicit blocks sum to at most 1,
indip_model_fields returns for every position and explicit symbol the field
log(ftilde_symbol) - log(ftilde_implicit), where ftilde = (1 - alpha) f + alpha/21
is applied to all 21 symbols of the position, the implicit raw frequency
being 1 minus the explicit block sum. -/
theorem indip_model_fields_formula {L : ℕ} (freqs : Idx L 20 → ℝ) (alpha : ℝ)
    (halpha0 : 0 < alpha) (halpha1 : alpha < 1)
    (h0 : ∀ x : Idx L 20, 0 ≤ freqs x)
    (hsum : ∀ i : Fin L, ∑ a : Fin 20, freqs (i, a) ≤ 1) :
    indip_model_fields freqs alpha 21 =
      some fun x =>
        Real.log ((1 - alpha) * freqs x + alpha / 21) -
          Real.log ((1 - alpha) * (1 - ∑ a : Fin 20, freqs (x.1, a)) + alpha / 21) := by
  have h21 : ((21 : ℕ) : ℝ) = (21 : ℝ) := by norm_num
  unfold indip_model_fields
  congr 1
  funext x
  have hpcpos : 0 < pc_freqs freqs alpha 21 x := by
    rw [pc_freqs_apply, h21]
    have : 0 ≤ (1 - alpha) * freqs x :=
      mul_nonneg (by linarith) (h0 x)
    have : 0 < alpha / 21 := by positivity
    linarith
  have hgpos : 0 < freq_gauge freqs alpha 21 x := by
    rw [freq_gauge_apply freqs alpha 21 rfl, h21]
    have : 0 ≤ (1 - alpha) * (1 - ∑ a : Fin 20, freqs (x.1, a)) :=
      mul_nonneg (by linarith) (by have := hsum x.1; linarith)
    have : 0 < alpha / 21 := by positivity
    linarith
  rw [Real.log_div (ne_of_gt hpcpos) (ne_of_gt hgpos), pc_freqs_apply,
    freq_gauge_apply freqs alpha 21 rfl, h21]

/-- Claim C3 (witness): the formula at the concrete input L = 1, zero
frequencies and alpha = 1/2. -/
theorem indip_model_fields_formula_witness :
    ((0 : ℝ) < 1 / 2 ∧ (1 : ℝ) / 2 < 1 ∧ (∀ x : Idx 1 20, 0 ≤ (0 : ℝ)) ∧
        (∀ i : Fin 1, ∑ _a : Fin 20, (0 : ℝ) ≤ 1)) ∧
      indip_model_fields (fun _ : Idx 1 20 => (0 : ℝ)) (1 / 2) 21 =
        some fun x =>
          Real.log ((1 - 1 / 2) * (fun _ : Idx 1 20 => (0 : ℝ)) x + 1 / 2 / 21) -
            Real.log ((1 - 1 / 2) *
                (1 - ∑ a : Fin 20, (fun _ : Idx 1 20 => (0 : ℝ)) (x.1, a)) + 1 / 2 / 21) :=
  ⟨⟨by norm_num, by norm_num, fun _ => le_refl 0, fun _ => by simp⟩,
    indip_model_fields_formula (fun _ => 0) (1 / 2) (by norm_num) (by norm_num)
      (fun _ => le_refl 0) (fun _ => by simp)⟩

/-- Entries of a self-correlation block are untouched by the repair loop
over a list of positions not containing that block position. -/
theorem foldl_fix_block_not_mem {L qg : ℕ} (fp : Idx L qg → ℝ)
    (l : List (Fin L)) (c : Matrix (Idx L qg) (Idx L qg) ℝ) (i : Fin L)
    (a b : Fin qg) (hi : i ∉ l) :
    (l.foldl (fun c j => fix_diag_block fp j c) c) (i, a) (i, b) = c (i, a) (i, b) := by
  induction l generalizing c with
  | nil => rfl
  | cons j t ih =>
    have hij : i ≠ j := fun h => hi (h ▸ List.mem_cons_self j t)
    have hit : i ∉ t := fun h => hi (List.mem_cons_of_mem j h)
    rw [List.foldl_cons, ih _ hit]
    simp [fix_diag_block, hij]

/-- After the repair loop runs over a list containing position i, the
(i, i) self-correlation block holds the regularized frequencies on its
diagonal and zeros elsewhere. -/
theorem foldl_fix_block_mem {L qg : ℕ} (fp : Idx L qg → ℝ)
    (l : List (Fin L)) (c : Matrix (Idx L qg) (Idx L qg) ℝ) (i : Fin L)
    (a b : Fin qg) (hi : i ∈ l) :
    (l.foldl (fun c j => fix_diag_block fp j c) c) (i, a) (i, b) =
      if a = b then fp (i, a) else 0 := by
  induction l generalizing c with
  | nil => cases hi
  | cons j t ih =>
    rw [List.foldl_cons]
    by_cases h : i ∈ t
    · exact ih _ h
    · have hij : i = j := by
        rcases List.mem_cons.mp hi with h1 | h2
        · exact h1
        · exact absurd h2 h
      subst hij
      rw [foldl_fix_block_not_mem fp t _ i a b h]
      by_cases hab : a = b
      · subst hab
        simp [fix_diag_block]
      · simp [fix_diag_block, hab]

/-- Claim C4: for every correlation matrix, frequency vector and alpha in
[0, 1), the matrix returned by add_pseudocounts has, within each position
self-correlation block, off-diagonal entries exactly 0 and each diagonal
entry exactly equal to the regularized frequency (1 - alpha) f + alpha/q_true
of the corresponding symbol. -/
theorem add_pseudocounts_diag_repair {L qg : ℕ}
    (corr_mat : Matrix (Idx L qg) (Idx L qg) ℝ) (freqs : Idx L qg → ℝ)
    (alpha : ℝ) (q_true : ℕ) (halpha0 : 0 ≤ alpha) (halpha1 : alpha < 1)
    (i : Fin L) (a b : Fin qg) (hab : a ≠ b) :
    (add_pseudocounts corr_mat freqs alpha q_true).2 (i, a) (i, b) = 0 ∧
      (add_pseudocounts corr_mat freqs alpha q_true).2 (i, a) (i, a) =
        (1 - alpha) * freqs (i, a) + alpha / q_true := by
  have hmem : i ∈ List.finRange L := List.mem_finRange i
  constructor
  · simp only [add_pseudocounts]
    rw [foldl_fix_block_mem _ _ _ i a b hmem]
    simp [hab]
  · simp only [add_pseudocounts]
    rw [foldl_fix_block_mem _ _ _ i a a hmem]
    simp

/-- Claim C4 (witness): the repaired block at the concrete input L = 1,
qg = 2, q_true = 21, zero correlation matrix, zero frequencies, alpha = 0,
symbols a = 0 and b = 1. -/
theorem add_pseudocounts_diag_repair_witness :
    ((0 : ℝ) ≤ 0 ∧ (0 : ℝ) < 1 ∧ (0 : Fin 2) ≠ 1) ∧
      (add_pseudocounts (Matrix.of fun _ _ => (0 : ℝ) : Matrix (Idx 1 2) (Idx 1 2) ℝ)
            (fun _ => 0) 0 21).2 ((0 : Fin 1), (0 : Fin 2)) ((0 : Fin 1), (1 : Fin 2)) = 0 ∧
        (add_pseudocounts (Matrix.of fun _ _ => (0 : ℝ) : Matrix (Idx 1 2) (Idx 1 2) ℝ)
            (fun _ => 0) 0 21).2 ((0 : Fin 1), (0 : Fin 2)) ((0 : Fin 1), (0 : Fin 2)) =
          (1 - 0) * (0 : ℝ) + 0 / (21 : ℕ) :=
  ⟨⟨le_refl 0, by norm_num, by decide⟩,
    add_pseudocounts_diag_repair (Matrix.of fun _ _ => (0 : ℝ)) (fun _ => 0) 0 21
      (le_refl 0) (by norm_num) 0 0 1 (by decide)⟩

/-- Looking up an alphabet symbol in ntdict and indexing AAs back with the
result returns the symbol. -/
theorem ntdict_roundtrip : ∀ c ∈ AAs, (ntdict c).bind (fun k => AAs.get? k) = some c := by
  decide

/-- Encoding a list of alphabet symbols succeeds and decoding the flat
encoded row symbol by symbol returns the original list. -/
theorem mapM_ntdict_roundtrip (s : List Char) (hs : ∀ c ∈ s, c ∈ AAs) :
    ∃ row : List ℕ, s.mapM ntdict = some row ∧
      row.mapM (fun k => AAs.get? k) = some s := by
  induction s with
  | nil => exact ⟨[], by rw [List.mapM_nil]; rfl, by rw [List.mapM_nil]; rfl⟩
  | cons c t ih =>
    have hc : c ∈ AAs := hs c (List.mem_cons_self c t)
    have ht : ∀ c ∈ t, c ∈ AAs := fun x hx => hs x (List.mem_cons_of_mem c hx)
    obtain ⟨row, h1, h2⟩ := ih ht
    have hcb := ntdict_roundtrip c hc
    cases hnt : ntdict c with
    | none => rw [hnt] at hcb; simp at hcb
    | some k =>
      rw [hnt] at hcb
      simp only [Option.some_bind] at hcb
      refine ⟨k :: row, ?_, ?_⟩
      · simp only [List.mapM_cons, hnt, h1]
        rfl
      · simp only [List.mapM_cons, hcb, h2]
        rfl

/-- Claim C6 (counterexample): for the concrete sequence AC, the encoding is
the 1 x 2 matrix [[1, 2]] because seq2num adds a leading axis, and feeding
that two-dimensional value back to num2seq fails (indexing the alphabet list
by a length-2 row is a TypeError), so num2seq(seq2num(s)) is not s. -/
theorem codec_roundtrip_counterexample :
    (seq2num (PySeqInput.str ['A', 'C'])).bind num2seq ≠ some ['A', 'C'] := by
  decide

/-- Claim C6 (amended): for every sequence over the fixed alphabet, seq2num
returns a single-row matrix and decoding that row as a flat array returns
the original sequence; the direct composite num2seq(seq2num(s)) instead
fails for sequences of length other than one, since seq2num wraps its
result in an extra leading axis. -/
theorem codec_roundtrip_amended (s : List Char) (hs : ∀ c ∈ s, c ∈ AAs) :
    ∃ row : List ℕ, seq2num (PySeqInput.str s) = some (PyNum.mat [row]) ∧
      num2seq (PyNum.flat row) = some s := by
  obtain ⟨row, h1, h2⟩ := mapM_ntdict_roundtrip s hs
  exact ⟨row, by rw [seq2num, h1]; rfl, by rw [num2seq, h2]⟩

/-- Claim C6 (witness): the amended round trip at the concrete sequence AC. -/
theorem codec_roundtrip_amended_witness :
    (∀ c ∈ ['A', 'C'], c ∈ AAs) ∧
      ∃ row : List ℕ, seq2num (PySeqInput.str ['A', 'C']) = some (PyNum.mat [row]) ∧
        num2seq (PyNum.flat row) = some ['A', 'C'] :=
  ⟨by decide, codec_roundtrip_amended ['A', 'C'] (by decide)⟩

/-- One Metropolis step preserves the one-hot block invariant: the proposed
configuration replaces one block by t_1hot, which has at most one 1, and
leaves all other blocks unchanged. -/
theorem metropolis_step_preserves {L qg : ℕ} (jcoupl : Matrix (Idx L qg) (Idx L qg) ℝ)
    (p : Idx L qg → ℝ) (beta : ℝ) (s : Idx L qg → ℤ) (dr : MetroDraw L qg)
    (hs : one_hot_invariant s) :
    one_hot_invariant (metropolis_step jcoupl p beta s dr) := by
  have ht : ∀ a b : Fin qg, t_1hot dr.t_n a = 1 → t_1hot dr.t_n b = 1 → a = b := by
    intro a b ha hb
    simp only [t_1hot] at ha hb
    split_ifs at ha hb with h1 h2
    · exact Fin.ext (h1.trans h2.symm)
    · exact absurd hb (by decide)
    · exact absurd ha (by decide)
    · exact absurd ha (by decide)
  simp only [metropolis_step]
  split
  · intro i a b ha hb
    by_cases hi : i = dr.pos
    · subst hi
      have ha1 : t_1hot dr.t_n a = 1 := by simpa using ha
      have hb1 : t_1hot dr.t_n b = 1 := by simpa using hb
      exact ht a b ha1 hb1
    · simp only [if_neg hi] at ha hb
      exact hs i a b ha hb
  · exact hs

/-- The Metropolis chain preserves the one-hot block invariant for any list
of draws. -/
theorem metropolis_foldl_preserves {L qg : ℕ} (jcoupl : Matrix (Idx L qg) (Idx L qg) ℝ)
    (p : Idx L qg → ℝ) (beta : ℝ) (draws : List (MetroDraw L qg)) (s : Idx L qg → ℤ)
    (hs : one_hot_invariant s) :
    one_hot_invariant (draws.foldl (metropolis_step jcoupl p beta) s) := by
  induction draws generalizing s with
  | nil => exact hs
  | cons dr t ih =>
    rw [List.foldl_cons]
    exact ih _ (metropolis_step_preserves jcoupl p beta s dr hs)

/-- Claim C7: every occurrence vector the program produces has at most one 1
in each position block: every row of seq2occurrence output, every vector
returned by sample_data_indip, and the Metropolis chain state after any
number of steps from a start state satisfying the invariant. -/
theorem one_hot_blocks_invariant {B N L qg : ℕ} (q_true : ℕ) :
    (∀ (seqs : Fin B → Fin N → ℕ) (r : Fin B),
        one_hot_invariant (seq2occurrence seqs q_true r)) ∧
      (∀ (fields : Idx L qg → ℝ) (beta : ℝ) (draw : Fin L → Fin (qg + 1)),
        one_hot_invariant (sample_data_indip fields beta draw)) ∧
      (∀ (jcoupl : Matrix (Idx L qg) (Idx L qg) ℝ) (p : Idx L qg → ℝ) (beta : ℝ)
          (s : Idx L qg → ℤ) (draws : List (MetroDraw L qg)),
        one_hot_invariant s →
          one_hot_invariant (draws.foldl (metropolis_step jcoupl p beta) s)) := by
  refine ⟨?_, ?_, ?_⟩
  · intro seqs r i a b ha hb
    simp only [seq2occurrence] at ha hb
    split_ifs at ha hb with h1 h2
    · exact Fin.ext (by rw [← h1, h2])
    · exact absurd hb (by decide)
    · exact absurd ha (by decide)
    · exact absurd ha (by decide)
  · intro fields beta draw i a b ha hb
    simp only [sample_data_indip] at ha hb
    split_ifs at ha hb with h1 h2
    · exact Fin.ext (by rw [← h1, h2])
    · exact absurd hb (by norm_num)
    · exact absurd ha (by norm_num)
    · exact absurd ha (by norm_num)
  · intro jcoupl p beta s draws hs
    exact metropolis_foldl_preserves jcoupl p beta draws s hs

/-- Claim C7 (witness): the invariant at concrete instances of the three
producers, with the chain started in the all-zero state. -/
theorem one_hot_blocks_invariant_witness :
    one_hot_invariant (seq2occurrence (fun _ _ => 0 : Fin 1 → Fin 1 → ℕ) 21 0) ∧
      one_hot_invariant (sample_data_indip (fun _ : Idx 1 1 => (0 : ℝ)) 1 (fun _ => 0)) ∧
      (one_hot_invariant (fun _ : Idx 1 1 => (0 : ℤ)) ∧
        one_hot_invariant (([] : List (MetroDraw 1 1)).foldl
          (metropolis_step (Matrix.of fun _ _ => (0 : ℝ)) (fun _ => 0) 1)
          (fun _ : Idx 1 1 => (0 : ℤ)))) :=
  ⟨(@one_hot_blocks_invariant 1 1 1 1 21).1 _ _,
    (@one_hot_blocks_invariant 1 1 1 1 21).2.1 _ _ _,
    fun _ _ _ h _ => by simp at h,
    (@one_hot_blocks_invariant 1 1 1 1 21).2.2 _ _ _ _ _ (fun _ _ _ h _ => by simp at h)⟩

/-- Claim C8 (counterexample): with alpha = 0 and the all-zero frequency
vector (so some empirical frequency is exactly 0), indip_model_fields does
not signal an error: it returns an ordinary value (numpy merely warns and
produces non-finite entries). -/
theorem indip_model_fields_no_error_counterexample :
    (indip_model_fields (fun _ : Idx 1 20 => (0 : ℝ)) 0 21).isSome = true := rfl

/-- Claim C8 (amended): with alpha = 0 and a valid frequency vector with
some entry exactly 0 or exactly 1, indip_model_fields does not raise; it
returns normally, but the vector is not an ordinary finite field vector:
some entry is the log of a ratio whose numerator (regularized symbol
frequency) or denominator (regularized implicit frequency) is exactly zero,
which in the float code is -inf, +inf or NaN. -/
theorem indip_model_fields_alpha_zero_degenerate {L : ℕ} (freqs : Idx L 20 → ℝ)
    (h0 : ∀ x : Idx L 20, 0 ≤ freqs x)
    (hsum : ∀ j : Fin L, ∑ a : Fin 20, freqs (j, a) ≤ 1)
    (hx : ∃ x : Idx L 20, freqs x = 0 ∨ freqs x = 1) :
    (indip_model_fields freqs 0 21).isSome = true ∧
      ∃ x : Idx L 20, pc_freqs freqs 0 21 x = 0 ∨ freq_gauge freqs 0 21 x = 0 := by
  refine ⟨rfl, ?_⟩
  have hpc : ∀ x : Idx L 20, pc_freqs freqs 0 21 x = freqs x := by
    intro x
    rw [pc_freqs_apply]
    norm_num
  obtain ⟨x, hx0 | hx1⟩ := hx
  · exact ⟨x, Or.inl (by rw [hpc, hx0])⟩
  · refine ⟨x, Or.inr ?_⟩
    rw [freq_gauge_apply freqs 0 21 rfl]
    have hS_le := hsum x.1
    have hS_ge : (1 : ℝ) ≤ ∑ a : Fin 20, freqs (x.1, a) := by
      rw [← hx1]
      exact Finset.single_le_sum (fun a _ => h0 (x.1, a)) (Finset.mem_univ x.2)
    have hS : ∑ a : Fin 20, freqs (x.1, a) = 1 := le_antisymm hS_le hS_ge
    rw [hS]
    norm_num

/-- Claim C8 (witness): the amended statement at the all-zero frequency
vector with L = 1. -/
theorem indip_model_fields_alpha_zero_degenerate_witness :
    ((∀ x : Idx 1 20, 0 ≤ (0 : ℝ)) ∧ (∀ j : Fin 1, ∑ _a : Fin 20, (0 : ℝ) ≤ 1) ∧
        (∃ x : Idx 1 20, (0 : ℝ) = 0 ∨ (0 : ℝ) = 1)) ∧
      (indip_model_fields (fun _ : Idx 1 20 => (0 : ℝ)) 0 21).isSome = true ∧
        ∃ x : Idx 1 20,
          pc_freqs (fun _ : Idx 1 20 => (0 : ℝ)) 0 21 x = 0 ∨
            freq_gauge (fun _ : Idx 1 20 => (0 : ℝ)) 0 21 x = 0 :=
  ⟨⟨fun _ => le_refl 0, fun _ => by simp, ⟨(0, 0), Or.inl rfl⟩⟩,
    indip_model_fields_alpha_zero_degenerate (fun _ => 0) (fun _ => le_refl 0)
      (fun _ => by simp) ⟨(0, 0), Or.inl rfl⟩⟩

/-- Claim C9: when metropolis is given a start configuration whose dtype is
not np.int32, it returns the error code 1 immediately, for every draw list
(so no sampling step runs) and without coercing the input. -/
theorem metropolis_invalid_start_type_errors {L qg : ℕ}
    (jcoupl : Matrix (Idx L qg) (Idx L qg) ℝ) (p : Idx L qg → ℝ) (beta : ℝ)
    (dtype : Dtype) (v : Idx L qg → ℤ) (rand_start : Idx L qg → ℤ)
    (draws : List (MetroDraw L qg)) (h : dtype ≠ Dtype.int32) :
    metropolis jcoupl p beta (StartConf.arr dtype v) rand_start draws =
      MetroResult.code 1 := by
  simp [metropolis, metropolis_init, h]

/-- Claim C9 (witness): a float64 start configuration yields the error code
1 at a concrete instance. -/
theorem metropolis_invalid_start_type_errors_witness :
    Dtype.float64 ≠ Dtype.int32 ∧
      metropolis (Matrix.of fun _ _ => (0 : ℝ) : Matrix (Idx 1 1) (Idx 1 1) ℝ)
          (fun _ => 0) 1 (StartConf.arr Dtype.float64 fun _ => 0) (fun _ => 0) [] =
        MetroResult.code 1 :=
  ⟨by decide, metropolis_invalid_start_type_errors (Matrix.of fun _ _ => (0 : ℝ))
    (fun _ => 0) 1 Dtype.float64 (fun _ => 0) (fun _ => 0) [] (by decide)⟩

/-- Claim C10: with the default NaN start configuration, the realized
np.random.randint(1, size=L) draw has every entry in [0, 1), so the initial
chain state is deterministically the all-zero configuration, and metropolis
runs its chain from that all-zero state. -/
theorem metropolis_default_start_all_zeros {L qg : ℕ}
    (jcoupl : Matrix (Idx L qg) (Idx L qg) ℝ) (p : Idx L qg → ℝ) (beta : ℝ)
    (rand_start : Idx L qg → ℤ) (draws : List (MetroDraw L qg))
    (h : ∀ x : Idx L qg, 0 ≤ rand_start x ∧ rand_start x < 1) :
    metropolis_init StartConf.nan rand_start = InitResult.ok (fun _ => 0) ∧
      metropolis jcoupl p beta StartConf.nan rand_start draws =
        MetroResult.conf (draws.foldl (metropolis_step jcoupl p beta) (fun _ => 0)) := by
  have hz : rand_start = fun _ => 0 := by
    funext x
    have hx := h x
    omega
  constructor
  · rw [metropolis_init, hz]
  · rw [metropolis, metropolis_init, hz]

/-- Claim C10 (witness): the all-zero initial state at a concrete realized
draw with every entry in [0, 1). -/
theorem metropolis_default_start_all_zeros_witness :
    (∀ x : Idx 1 1, (0 : ℤ) ≤ 0 ∧ (0 : ℤ) < 1) ∧
      metropolis_init StartConf.nan (fun _ : Idx 1 1 => (0 : ℤ)) =
          InitResult.ok (fun _ => 0) ∧
        metropolis (Matrix.of fun _ _ => (0 : ℝ) : Matrix (Idx 1 1) (Idx 1 1) ℝ)
            (fun _ => 0) 1 StartConf.nan (fun _ => 0) [] =
          MetroResult.conf (([] : List (MetroDraw 1 1)).foldl
            (metropolis_step (Matrix.of fun _ _ => (0 : ℝ)) (fun _ => 0) 1) (fun _ => 0)) :=
  ⟨by decide, metropolis_default_start_all_zeros (Matrix.of fun _ _ => (0 : ℝ))
    (fun _ => 0) 1 (fun _ => 0) [] (by decide)⟩

/-- The base-2 convention term is the natural-log convention term divided by
log 2. -/
theorem plogb_eq_plog_div (x : ℝ) : plogb x = plog x / Real.log 2 := by
  rw [plogb, plog]
  split_ifs with h
  · simp
  · rw [Real.logb]
    ring

/-- The convention term x log x is nonpositive on [0, 1]. -/
theorem plog_nonpos {x : ℝ} (h0 : 0 ≤ x) (h1 : x ≤ 1) : plog x ≤ 0 := by
  rw [plog]
  split_ifs with h
  · exact le_refl 0
  · nlinarith [Real.log_nonpos h0 h1, h0]

/-- Gibbs inequality: for a probability vector u on n outcomes, the entropy
-sum u log u is at most log n, stated as 0 <= log n + sum of plog (u k). -/
theorem sum_plog_ge (n : ℕ) (hn : 0 < n) (u : Fin n → ℝ) (h0 : ∀ k, 0 ≤ u k)
    (hsum : ∑ k, u k = 1) : 0 ≤ Real.log n + ∑ k, plog (u k) := by
  have hnpos : (0 : ℝ) < n := by exact_mod_cast hn
  have key : ∀ k, u k - 1 / n ≤ u k * Real.log n + plog (u k) := by
    intro k
    by_cases h : u k = 0
    · rw [h, plog, if_pos rfl]
      have hp : (0 : ℝ) < 1 / n := by positivity
      simp only [zero_mul, zero_add]
      linarith
    · have hpos : 0 < u k := lt_of_le_of_ne (h0 k) (Ne.symm h)
      rw [plog, if_neg h]
      have hprod : (0 : ℝ) < (n : ℝ) * u k := by positivity
      have hlog2 := Real.log_le_sub_one_of_pos (show (0 : ℝ) < ((n : ℝ) * u k)⁻¹ by positivity)
      rw [Real.log_inv] at hlog2
      have hmul : Real.log ((n : ℝ) * u k) = Real.log n + Real.log (u k) :=
        Real.log_mul (ne_of_gt hnpos) h
      have hinv : u k * ((n : ℝ) * u k)⁻¹ = 1 / n := by
        field_simp
        ring
      have hmid : 1 - ((n : ℝ) * u k)⁻¹ ≤ Real.log n + Real.log (u k) := by
        rw [← hmul]
        linarith
      calc u k - 1 / (n : ℝ)
          = u k * (1 - ((n : ℝ) * u k)⁻¹) := by rw [mul_sub, mul_one, hinv]
        _ ≤ u k * (Real.log n + Real.log (u k)) :=
            mul_le_mul_of_nonneg_left hmid (le_of_lt hpos)
        _ = u k * Real.log n + u k * Real.log (u k) := by ring
  have hsum_ineq : ∑ k : Fin n, (u k - 1 / (n : ℝ)) ≤
      ∑ k : Fin n, (u k * Real.log n + plog (u k)) :=
    Finset.sum_le_sum fun k _ => key k
  have hlhs : ∑ k : Fin n, (u k - 1 / (n : ℝ)) = 0 := by
    rw [Finset.sum_sub_distrib, hsum, Finset.sum_const, Finset.card_univ,
      Fintype.card_fin, nsmul_eq_mul]
    field_simp
  have hrhs : ∑ k : Fin n, (u k * Real.log n + plog (u k)) =
      Real.log n + ∑ k, plog (u k) := by
    rw [Finset.sum_add_distrib, ← Finset.sum_mul, hsum, one_mul]
  rw [hlhs, hrhs] at hsum_ineq
  exact hsum_ineq

/-- Normal form of conservation_1hot: the branching on zero frequencies is
exactly the 0 log 0 = 0 convention. -/
theorem conservation_1hot_eq_plogb {L qg : ℕ} (freqs : Idx L qg → ℝ) (q : ℕ)
    (i : Fin L) :
    conservation_1hot freqs q i =
      Real.logb 2 q + (∑ a : Fin qg, plogb (freqs (i, a))) +
        plogb (1 - ∑ a : Fin qg, freqs (i, a)) := by
  have hsum : (∑ a : Fin qg, if freqs (i, a) = 0 then 0
      else freqs (i, a) * Real.logb 2 (freqs (i, a))) =
      ∑ a : Fin qg, plogb (freqs (i, a)) :=
    Finset.sum_congr rfl fun a _ => by rw [plogb]
  simp only [conservation_1hot]
  by_cases hlf : (1 - ∑ a : Fin qg, freqs (i, a)) = 0
  · rw [if_neg (not_not_intro hlf), plogb, if_pos hlf, hsum]
    ring
  · rw [if_pos hlf, plogb, if_neg hlf, hsum]

/-- Conservation written over natural logs with a common division by log 2. -/
theorem conservation_1hot_eq_div {L qg : ℕ} (freqs : Idx L qg → ℝ) (q : ℕ)
    (i : Fin L) :
    conservation_1hot freqs q i =
      (Real.log q + ((∑ a : Fin qg, plog (freqs (i, a))) +
        plog (1 - ∑ a : Fin qg, freqs (i, a)))) / Real.log 2 := by
  rw [conservation_1hot_eq_plogb]
  simp only [plogb_eq_plog_div]
  rw [Real.logb, ← Finset.sum_div]
  ring

/-- The convention term vanishes at frequency 0. -/
theorem plogb_zero : plogb 0 = 0 := by
  rw [plogb, if_pos rfl]

/-- The convention term vanishes at frequency 1. -/
theorem plogb_one : plogb 1 = 0 := by
  rw [plogb, if_neg one_ne_zero, Real.logb_one]
  ring

/-- Claim C5: for q = 21 and a valid gauge-fixed frequency vector (entries
in [0, 1], explicit block sums at most 1), every per-position value of
conservation_1hot lies in [0, log2 21]; it equals log2 21 at a position
where one symbol (explicit, or the implicit one when every explicit entry is
zero) has frequency 1 and all others 0, and it equals 0 at a position where
every one of the 21 symbols has frequency exactly 1/21. -/
theorem conservation_1hot_bounds {L : ℕ} (freqs : Idx L 20 → ℝ) (i : Fin L)
    (h0 : ∀ x : Idx L 20, 0 ≤ freqs x) (h1 : ∀ x : Idx L 20, freqs x ≤ 1)
    (hsum : ∀ j : Fin L, ∑ a : Fin 20, freqs (j, a) ≤ 1) :
    (0 ≤ conservation_1hot freqs 21 i ∧
        conservation_1hot freqs 21 i ≤ Real.logb 2 21) ∧
      (((∃ a0 : Fin 20, freqs (i, a0) = 1 ∧ ∀ a : Fin 20, a ≠ a0 → freqs (i, a) = 0) ∨
          (∀ a : Fin 20, freqs (i, a) = 0)) →
        conservation_1hot freqs 21 i = Real.logb 2 21) ∧
      ((∀ a : Fin 20, freqs (i, a) = 1 / 21) → conservation_1hot freqs 21 i = 0) := by
  have h21 : ((21 : ℕ) : ℝ) = (21 : ℝ) := by norm_num
  have hS0 : 0 ≤ ∑ a : Fin 20, freqs (i, a) :=
    Finset.sum_nonneg fun a _ => h0 (i, a)
  have hS1 : ∑ a : Fin 20, freqs (i, a) ≤ 1 := hsum i
  have hlog2 : (0 : ℝ) < Real.log 2 := Real.log_pos (by norm_num)
  refine ⟨?_, ?_, ?_⟩
  · -- bounds: package the 21 per-symbol frequencies as a probability vector
    set u : Fin 21 → ℝ := Fin.snoc (fun a : Fin 20 => freqs (i, a))
      (1 - ∑ a : Fin 20, freqs (i, a)) with hu
    have hu0 : ∀ k, 0 ≤ u k := by
      intro k
      refine Fin.lastCases ?_ ?_ k
      · rw [hu, Fin.snoc_last]
        linarith
      · intro j
        rw [hu, Fin.snoc_castSucc]
        exact h0 (i, j)
    have hu1 : ∀ k, u k ≤ 1 := by
      intro k
      refine Fin.lastCases ?_ ?_ k
      · rw [hu, Fin.snoc_last]
        linarith
      · intro j
        rw [hu, Fin.snoc_castSucc]
        exact h1 (i, j)
    have husum : ∑ k, u k = 1 := by
      rw [Fin.sum_univ_castSucc]
      simp only [hu, Fin.snoc_castSucc, Fin.snoc_last]
      ring
    have husplit : ∑ k : Fin 21, plog (u k) =
        (∑ a : Fin 20, plog (freqs (i, a))) +
          plog (1 - ∑ a : Fin 20, freqs (i, a)) := by
      rw [Fin.sum_univ_castSucc]
      simp only [hu, Fin.snoc_castSucc, Fin.snoc_last]
    have hgibbs := sum_plog_ge 21 (by norm_num) u hu0 husum
    have hup : ∑ k : Fin 21, plog (u k) ≤ 0 :=
      Finset.sum_nonpos fun k _ => plog_nonpos (hu0 k) (hu1 k)
    constructor
    · rw [conservation_1hot_eq_div, ← husplit]
      exact div_nonneg hgibbs hlog2.le
    · rw [conservation_1hot_eq_div, ← husplit, Real.logb]
      refine (div_le_div_iff_of_pos_right hlog2).mpr ?_
      have hc : Real.log ((21 : ℕ) : ℝ) = Real.log 21 := by norm_num
      rw [hc]
      linarith
  · -- fully concentrated positions reach log2 21
    rintro (⟨a0, ha0, hrest⟩ | hall)
    · have hSeq : ∑ a : Fin 20, freqs (i, a) = 1 := by
        rw [Finset.sum_eq_single a0 (fun b _ hb => hrest b hb)
          (fun h => absurd (Finset.mem_univ a0) h), ha0]
      have hzero : ∑ a : Fin 20, plogb (freqs (i, a)) = 0 :=
        Finset.sum_eq_zero fun a _ => by
          by_cases ha : a = a0
          · rw [ha, ha0, plogb_one]
          · rw [hrest a ha, plogb_zero]
      rw [conservation_1hot_eq_plogb, hSeq, hzero,
        show (1 : ℝ) - 1 = 0 by ring, plogb_zero]
      norm_num
    · have hSeq : ∑ a : Fin 20, freqs (i, a) = 0 :=
        Finset.sum_eq_zero fun a _ => hall a
      have hzero : ∑ a : Fin 20, plogb (freqs (i, a)) = 0 :=
        Finset.sum_eq_zero fun a _ => by rw [hall a, plogb_zero]
      rw [conservation_1hot_eq_plogb, hSeq, hzero,
        show (1 : ℝ) - 0 = 1 by ring, plogb_one]
      norm_num
  · -- the uniform position yields 0
    intro hall
    have hc1 : (∑ a : Fin 20, freqs (i, a)) = ∑ _a : Fin 20, (1 / 21 : ℝ) :=
      Finset.sum_congr rfl fun a _ => hall a
    have hSeq : ∑ a : Fin 20, freqs (i, a) = 20 / 21 := by
      rw [hc1, Finset.sum_const, Finset.card_univ, Fintype.card_fin, nsmul_eq_mul]
      norm_num
    have hval : plogb (1 / 21 : ℝ) = (1 / 21) * (-Real.logb 2 21) := by
      rw [plogb, if_neg (by norm_num),
        show (1 / 21 : ℝ) = (21 : ℝ)⁻¹ by norm_num, Real.logb_inv]
    have hsum21 : ∑ a : Fin 20, plogb (freqs (i, a)) =
        20 * ((1 / 21) * (-Real.logb 2 21)) := by
      have hc2 : (∑ a : Fin 20, plogb (freqs (i, a))) =
          ∑ _a : Fin 20, ((1 / 21 : ℝ) * (-Real.logb 2 21)) :=
        Finset.sum_congr rfl fun a _ => by rw [hall a, hval]
      rw [hc2, Finset.sum_const, Finset.card_univ, Fintype.card_fin, nsmul_eq_mul]
      norm_num
    have hc : Real.logb 2 ((21 : ℕ) : ℝ) = Real.logb 2 21 := by norm_num
    rw [conservation_1hot_eq_plogb, hSeq, hsum21,
      show (1 : ℝ) - 20 / 21 = 1 / 21 by norm_num, hval, hc]
    ring

/-- Claim C5 (witness): the uniform position with all 21 frequencies 1/21 at
L = 1 satisfies the hypotheses, so the bounds hold and the conservation is
exactly 0 there. -/
theorem conservation_1hot_bounds_witness :
    ((∀ x : Idx 1 20, 0 ≤ (1 / 21 : ℝ)) ∧ (∀ x : Idx 1 20, (1 / 21 : ℝ) ≤ 1) ∧
        (∀ j : Fin 1, ∑ _a : Fin 20, (1 / 21 : ℝ) ≤ 1)) ∧
      ((0 ≤ conservation_1hot (fun _ : Idx 1 20 => (1 / 21 : ℝ)) 21 0 ∧
          conservation_1hot (fun _ : Idx 1 20 => (1 / 21 : ℝ)) 21 0 ≤ Real.logb 2 21) ∧
        (((∃ a0 : Fin 20, (fun _ : Idx 1 20 => (1 / 21 : ℝ)) ((0 : Fin 1), a0) = 1 ∧
              ∀ a : Fin 20, a ≠ a0 → (fun _ : Idx 1 20 => (1 / 21 : ℝ)) ((0 : Fin 1), a) = 0) ∨
            (∀ a : Fin 20, (fun _ : Idx 1 20 => (1 / 21 : ℝ)) ((0 : Fin 1), a) = 0)) →
          conservation_1hot (fun _ : Idx 1 20 => (1 / 21 : ℝ)) 21 0 = Real.logb 2 21) ∧
        ((∀ a : Fin 20, (fun _ : Idx 1 20 => (1 / 21 : ℝ)) ((0 : Fin 1), a) = 1 / 21) →
          conservation_1hot (fun _ : Idx 1 20 => (1 / 21 : ℝ)) 21 0 = 0)) :=
  ⟨⟨fun _ => by norm_num, fun _ => by norm_num,
      fun _ => by rw [Finset.sum_const, Finset.card_univ, Fintype.card_fin, nsmul_eq_mul]; norm_num⟩,
    conservation_1hot_bounds (fun _ => 1 / 21) 0 (fun _ => by norm_num)
      (fun _ => by norm_num)
      (fun _ => by rw [Finset.sum_const, Finset.card_univ, Fintype.card_fin, nsmul_eq_mul]; norm_num)⟩
